import Mathlib

/-!
# Verification of the Y-LineageTracker time-estimation module

A shallow embedding of `LineageTracker/EstimateTime.py`: the tree
normalizer (`_read_tree_file`), the calibration parser and annotator
(`_get_calibration`, `_haplogroup_calibration`), the MCMC control-file
assembler (`_generate_mcmc_ctl`), the calibration selection of `run_mcmc`,
and the posterior extractor (`_summarize_result`).

The Python code manipulates trees through the external ete3 library, whose
sources are not part of this repository; the tree operations (`delete`,
preorder traversal, `search_nodes`, `write`, leaf iteration) are therefore
modelled from the specification's description of their behaviour (splice
the sole child of a deleted node into the deleted node's position, preorder
traversal tolerant of in-pass deletion, serialization with leaf names only
for format 9 and all non-root names for format 8).  Each such definition
carries a doc comment saying so.
-/

set_option maxHeartbeats 1000000

namespace YLT

instance {ε α : Type} [DecidableEq ε] [DecidableEq α] : DecidableEq (Except ε α) := by
  intro a b
  cases a <;> cases b
  case error.error e e' => exact decidable_of_iff (e = e') (by simp)
  case ok.ok x y => exact decidable_of_iff (x = y) (by simp)
  all_goals exact isFalse (by intro h; cases h)

/-- Rooted tree with a name (empty string = unnamed) and an ordered list of
children (empty = leaf), the shape of an ete3 `TreeNode` as used by
`EstimateTime.py` (node names only, no branch lengths). -/
inductive ETree where
  | node : String → List ETree → ETree
deriving Repr, Inhabited

namespace ETree

/-- Name of a node. -/
def nameOf : ETree → String
  | .node n _ => n

/-- Children of a node. -/
def childrenOf : ETree → List ETree
  | .node _ cs => cs

end ETree

/-! ## Character and string utilities (models of the Python primitives) -/

/-- Python's `\w` character class, ASCII fragment: letters, digits,
underscore. -/
def wordChar (c : Char) : Bool :=
  c.isAlpha || c.isDigit || c == '_'

/-- Python's `str.isspace` members relevant to `str.strip()`. -/
def wsChar (c : Char) : Bool :=
  c == ' ' || c == '\t' || c == '\n' || c == '\r' || c == '\x0b' || c == '\x0c'

/-- Nonempty all-digit character list (`\d+`). -/
def digits1 (l : List Char) : Bool :=
  !l.isEmpty && l.all Char.isDigit

/-- Nonempty all-word character list (`\w+`). -/
def word1 (l : List Char) : Bool :=
  !l.isEmpty && l.all wordChar

/-- Split at the first occurrence of `sep`; `none` when `sep` is absent. -/
def splitFirst (sep : Char) : List Char → Option (List Char × List Char)
  | [] => none
  | c :: rest =>
    if c == sep then some ([], rest)
    else
      match splitFirst sep rest with
      | some (a, b) => some (c :: a, b)
      | none => none

/-- Python `str.strip(ch)`: drop every leading and trailing occurrence of
the characters satisfying `p`. -/
def pyStrip (p : Char → Bool) (l : List Char) : List Char :=
  ((l.dropWhile p).reverse.dropWhile p).reverse

/-- Split at every occurrence of `sep` (Python `str.split(sep)` for a
one-character separator): empty runs yield empty fragments. -/
def splitChar (sep : Char) : List Char → List (List Char)
  | [] => [[]]
  | c :: rest =>
    let r := splitChar sep rest
    if c == sep then [] :: r
    else
      match r with
      | a :: as => (c :: a) :: as
      | [] => [[c]]

/-- The literal `NoName` erased textually at
`EstimateTime.py:271` (`tmp_tree_info.replace('NoName', '')`). -/
def noNamePat : List Char := ['N', 'o', 'N', 'a', 'm', 'e']

/-- Python `str.replace('NoName', '')`: delete the leftmost occurrence and
continue after it (non-overlapping, left to right). -/
def replaceNoName : List Char → List Char
  | 'N' :: 'o' :: 'N' :: 'a' :: 'm' :: 'e' :: rest => replaceNoName rest
  | c :: rest => c :: replaceNoName rest
  | [] => []

/-! ## Tree traversals and serializations -/

namespace ETree

mutual

/-- Names of the leaves in left-to-right order.  Modelled from the spec:
iterating an ete3 `Tree` (`[leaf for leaf in tree]`) yields its leaves in
this order. -/
def leafNames : ETree → List String
  | .node n [] => [n]
  | .node _ (c :: cs) => leafNamesL (c :: cs)

def leafNamesL : List ETree → List String
  | [] => []
  | c :: cs => leafNames c ++ leafNamesL cs

end

mutual

/-- All node names, root and leaves included, in preorder.  Modelled from
the spec: `search_nodes(name=x)` matches any node of the tree whose name
equals `x` exactly. -/
def allNames : ETree → List String
  | .node n cs => n :: allNamesL cs

def allNamesL : List ETree → List String
  | [] => []
  | c :: cs => allNames c ++ allNamesL cs

end

mutual

/-- Semantic effect of the round trip
`Tree(tree.write(format=9), format=9)` at `EstimateTime.py:204`.
Modelled from the spec: ete3 format 9 serializes leaf names only, so the
round trip keeps the topology and leaf names and leaves every internal
node (root included) unnamed. -/
def strip9 : ETree → ETree
  | .node n [] => .node n []
  | .node _ (c :: cs) => .node "" (strip9L (c :: cs))

def strip9L : List ETree → List ETree
  | [] => []
  | c :: cs => strip9 c :: strip9L cs

end

mutual

/-- The unary-pruning pass of `_read_tree_file` (`EstimateTime.py:206-208`)
acting below the root: a non-leaf node with exactly one child and an empty
name is deleted.  Modelled from the spec: ete3 `delete()` splices the sole
child into the deleted node's position and the preorder traversal then
visits that child, so deletion chains collapse in one pass. -/
def pruneNode : ETree → ETree
  | .node "" [c] => pruneNode c
  | .node n cs => .node n (pruneList cs)

def pruneList : List ETree → List ETree
  | [] => []
  | c :: cs => pruneNode c :: pruneList cs

end

/-- `_read_tree_file`'s pruning loop runs over
`iter_descendants('preorder')`, which yields every node except the root:
the root itself is never deleted. -/
def normTop (t : ETree) : ETree :=
  .node t.nameOf (pruneList t.childrenOf)

mutual

/-- The combined pruning/renaming pass of `_haplogroup_calibration`
(`EstimateTime.py:261-267`) acting below the root: an unnamed unary
non-leaf node is deleted; any other non-leaf node whose name is not in
`used` is renamed to `NoName`.  Tree surgery semantics as in `pruneNode`. -/
def annotNode (used : List String) : ETree → ETree
  | .node "" [c] => annotNode used c
  | .node n [] => .node n []
  | .node n cs => .node (if used.contains n then n else "NoName") (annotList used cs)

def annotList (used : List String) : List ETree → List ETree
  | [] => []
  | c :: cs => annotNode used c :: annotList used cs

end

/-- The pass of `_haplogroup_calibration` runs over
`iter_descendants('preorder')`: the root is neither deleted nor renamed. -/
def annotTop (used : List String) (t : ETree) : ETree :=
  .node t.nameOf (annotList used t.childrenOf)

mutual

/-- Renaming half of the `_haplogroup_calibration` pass in isolation:
every non-leaf node with a name outside `used` becomes `NoName`. -/
def renameUnused (used : List String) : ETree → ETree
  | .node n [] => .node n []
  | .node n (c :: cs) => .node (if used.contains n then n else "NoName") (renameUnusedL used (c :: cs))

def renameUnusedL (used : List String) : List ETree → List ETree
  | [] => []
  | c :: cs => renameUnused used c :: renameUnusedL used cs

end

mutual

/-- `cal_tree.search_nodes(name=nm)[0].name = pr`
(`EstimateTime.py:256`): rename the first node named `nm`; `none` when no
node matches (the Python `IndexError` caught at line 257). -/
def renameFirst (nm pr : String) : ETree → Option ETree
  | .node n cs =>
    if n == nm then some (.node pr cs)
    else
      match renameFirstL nm pr cs with
      | some cs' => some (.node n cs')
      | none => none

def renameFirstL (nm pr : String) : List ETree → Option (List ETree)
  | [] => none
  | c :: cs =>
    match renameFirst nm pr c with
    | some c' => some (c' :: cs)
    | none =>
      match renameFirstL nm pr cs with
      | some cs' => some (c :: cs')
      | none => none

end

mutual

/-- Apply `f` to every node name. -/
def mapNames (f : String → String) : ETree → ETree
  | .node n cs => .node (f n) (mapNamesL f cs)

def mapNamesL (f : String → String) : List ETree → List ETree
  | [] => []
  | c :: cs => mapNames f c :: mapNamesL f cs

end

mutual

/-- Body of ete3 `write(format=8)` (all names, no branch lengths).
Modelled from the spec: a leaf prints its name, an internal node prints
its parenthesized children followed by its name. -/
def write8 : ETree → String
  | .node n [] => n
  | .node n (c :: cs) => "(" ++ write8L (c :: cs) ++ ")" ++ n

def write8L : List ETree → String
  | [] => ""
  | [c] => write8 c
  | c :: c' :: cs => write8 c ++ "," ++ write8L (c' :: cs)

end

/-- ete3 `write(format=8)` of a whole tree.  Modelled from the spec /
ete3's default `format_root_node=False`: the root's own name is not
serialized; the string ends with `;`. -/
def write8Top : ETree → String
  | .node n [] => n ++ ";"
  | .node _ (c :: cs) => "(" ++ write8L (c :: cs) ++ ")" ++ ";"

mutual

/-- Body of ete3 `write(format=9)` (leaf names only). -/
def write9 : ETree → String
  | .node n [] => n
  | .node _ (c :: cs) => "(" ++ write9L (c :: cs) ++ ")"

def write9L : List ETree → String
  | [] => ""
  | [c] => write9 c
  | c :: c' :: cs => write9 c ++ "," ++ write9L (c' :: cs)

end

/-- ete3 `write(format=9)` of a whole tree. -/
def write9Top : ETree → String
  | .node n [] => n ++ ";"
  | .node _ (c :: cs) => "(" ++ write9L (c :: cs) ++ ")" ++ ";"

mutual

/-- The qualifying internal nodes of `_summarize_result`
(`EstimateTime.py:385-387`): preorder over the whole tree (root first,
`tree.traverse('preorder')`), keeping the nodes with more than one
child. -/
def qualNodes : ETree → List ETree
  | .node n cs =>
    (if cs.length > 1 then [ETree.node n cs] else []) ++ qualNodesL cs

def qualNodesL : List ETree → List ETree
  | [] => []
  | c :: cs => qualNodes c ++ qualNodesL cs

end

end ETree

/-! ## Calibration parsing (`EstimateTime.py:235-251`) -/

/-- Error message raised at `EstimateTime.py:251`. -/
def formatErr : String := "format of calibration is incorrect"

/-- Error message raised at `EstimateTime.py:258`. -/
def lookupErr : String := "cannot find the haplogroup node in tree"

/-- The four regex branches of `_haplogroup_calibration`
(`EstimateTime.py:237-251`) applied to one raw calibration line `i`,
returning `(used_node, cal_time)` on a match and the format error
otherwise.

Python semantics encoded here: `re.match(r'^...$', i)` also succeeds when
`i` ends in a single newline (as lines from `readlines()` do), and the
subsequent `i.split(...)` operates on the raw line, so a trailing newline
is carried into the produced prior expression. -/
def parseCal (s : String) : Except String (String × String) :=
  let l := s.data
  let hasNl := l.getLast? == some '\n'
  let core := if hasNl then l.dropLast else l
  let nl : List Char := if hasNl then ['\n'] else []
  match splitFirst ':' core with
  | none => .error formatErr
  | some (w, rest) =>
    if word1 w then
      if digits1 rest then
        -- `^\w+:\d+$` → `U(%s)` of `i.split(':')[1]`
        .ok (String.mk w, String.mk ('U' :: '(' :: (rest ++ nl ++ [')'])))
      else
        match rest with
        | '<' :: ds =>
          if digits1 ds then
            -- `^\w+:<\d+$` → `U(%s)` of `i.split(':<')[1]`
            .ok (String.mk w, String.mk ('U' :: '(' :: (ds ++ nl ++ [')'])))
          else .error formatErr
        | '>' :: ds =>
          if digits1 ds then
            -- `^\w+:>\d+$` → `L(%s)` of `i.split(':>')[1]`
            .ok (String.mk w, String.mk ('L' :: '(' :: (ds ++ nl ++ [')'])))
          else .error formatErr
        | _ =>
          match splitFirst '-' rest with
          | some (d1, d2) =>
            if digits1 d1 && digits1 d2 then
              -- `^\w+:\d+-\d+$` → `B(%s)` of `T1 ++ ', ' ++ T2`
              .ok (String.mk w,
                String.mk ('B' :: '(' :: (d1 ++ [',', ' '] ++ d2 ++ nl ++ [')'])))
            else .error formatErr
          | none => .error formatErr
    else .error formatErr

/-! ## Constraint application (`EstimateTime.py:234-259`) -/

/-- Loop state of the constraint loop: the (mutated) tree, the
`root_age` variable, and the `used_nodes` list. -/
structure CalState where
  tree : ETree
  rootAge : Option String
  used : List String
deriving Repr

/-- One iteration of the constraint loop (`EstimateTime.py:235-259`):
parse the line; a constraint naming the root records `root_age`, any other
constraint renames the first node with the constrained name (a missing
node is the lookup error); the raw name is appended to `used_nodes`. -/
def applyCal (rootName : String) (st : CalState) (line : String) :
    Except String CalState :=
  match parseCal line with
  | .error e => .error e
  | .ok (nm, pr) =>
    if nm == rootName then
      .ok ⟨st.tree, some pr, st.used ++ [nm]⟩
    else
      match ETree.renameFirst nm pr st.tree with
      | some t' => .ok ⟨t', st.rootAge, st.used ++ [nm]⟩
      | none => .error lookupErr

/-- The whole constraint loop over the calibration lines. -/
def applyCals (rootName : String) : CalState → List String → Except String CalState
  | st, [] => .ok st
  | st, l :: ls =>
    match applyCal rootName st l with
    | .ok st' => applyCals rootName st' ls
    | .error e => .error e

/-- `_haplogroup_calibration` (`EstimateTime.py:226-275`) on an
already-parsed tree and list of raw calibration lines: returns the
written temporary-file content (header `<tip count> 1`, blank line, the
format-8 serialization with every `NoName` occurrence textually deleted)
together with the final `root_age`. -/
def haplogroupCalibration (lines : List String) (t : ETree) :
    Except String (String × Option String) :=
  match applyCals t.nameOf ⟨t, none, []⟩ lines with
  | .error e => .error e
  | .ok st =>
    let t2 := ETree.annotTop st.used st.tree
    let taxa := (ETree.leafNames t2).length
    let txt := String.mk (replaceNoName (ETree.write8Top t2).data)
    .ok (toString taxa ++ " 1\n\n" ++ txt, st.rootAge)

/-! ## `_read_tree_file` (`EstimateTime.py:200-215`) -/

/-- The pruned tree of `_read_tree_file`: format-9 round trip (internal
names dropped), then the unary-pruning pass below the root. -/
def readPruned (t : ETree) : ETree :=
  ETree.normTop (ETree.strip9 t)

/-- `taxa_num` of `_read_tree_file` (`EstimateTime.py:209`), counted after
pruning. -/
def readTaxaNum (t : ETree) : Nat :=
  (ETree.leafNames (readPruned t)).length

/-- The content `_read_tree_file` writes: header, blank line, format-9
serialization of the pruned tree. -/
def readTreeFileText (t : ETree) : String :=
  toString (readTaxaNum t) ++ " 1\n\n" ++ ETree.write9Top (readPruned t)

/-! ## MCMC control parameters (`EstimateTime.py:324-368`) and the
calibration selection of `run_mcmc` (`EstimateTime.py:407-416`) -/

/-- The `nsample` choice of `_generate_mcmc_ctl`
(`EstimateTime.py:326-333`): the pair is (value used, warning logged).
`none` models an absent `--mcmc`; Python's truthiness test `if
arguments.mcmc:` sends the value `0` to the no-warning default branch. -/
def mcmcChoice (m : Option Int) : Int × Bool :=
  match m with
  | none => (10000, false)
  | some v =>
    if v == 0 then (10000, false)
    else if v > 1000 then (v, false)
    else (10000, true)

/-- `if auto_calibration: ctl_parameters['RootAge'] = auto_calibration`
(`EstimateTime.py:358-359`), including Python's truthiness on strings: an
empty string would not be added. -/
def rootAgeParam (ra : Option String) : List (String × String) :=
  match ra with
  | some s => if s == "" then [] else [("RootAge", s)]
  | none => []

/-- The ordered `ctl_parameters` mapping of `_generate_mcmc_ctl`
(`EstimateTime.py:335-359`).  File paths, the substitution-model code and
the `rgene_gamma` string (a float computation) are taken as opaque
parameters; insertion order is the Python `dict` order. -/
def generateMcmcCtl (m : Option Int) (seqfile treefile mcmcfile outfile modelCode rgene : String)
    (ra : Option String) : List (String × String) :=
  [("seed", "-1"),
   ("seqfile", seqfile),
   ("treefile", treefile),
   ("mcmcfile", mcmcfile),
   ("outfile", outfile),
   ("ndata", "1"),
   ("seqtype", "0"),
   ("usedata", "1"),
   ("clock", "1"),
   ("model", modelCode),
   ("alpha", "0"),
   ("ncatG", "5"),
   ("cleandata", "0"),
   ("BDparas", "1 1 0.1"),
   ("kappa_gamma", "6 2"),
   ("alpha_gamma", "1 1"),
   ("rgene_gamma", rgene),
   ("print", "1"),
   ("burnin", "2000"),
   ("sampfreq", "5"),
   ("nsample", toString (mcmcChoice m).1)] ++ rootAgeParam ra

/-- The `auto_calibration` value reaching `_generate_mcmc_ctl`, per
`run_mcmc` (`EstimateTime.py:409-416`): the automatic lookup result
(`_get_root_age`, abstracted as `autoLookup` since its lookup table lives
outside this module) is kept only when no explicit calibration was given;
an explicit calibration replaces it by `_haplogroup_calibration`'s
`root_age`. -/
def selectRootAge (auto : Bool) (cal : Option (List String)) (autoLookup : Option String)
    (t : ETree) : Except String (Option String) :=
  let a0 := if auto then autoLookup else none
  match cal with
  | some ls =>
    match haplogroupCalibration ls t with
    | .ok (_, ra) => .ok ra
    | .error e => .error e
  | none => .ok a0

/-! ## `_summarize_result` (`EstimateTime.py:371-398`) -/

/-- `head_num` (`EstimateTime.py:376-378`): the loop stores the index of
every line starting with `Posterior mean`, so the LAST such index wins;
`none` models the `NameError` when no line matches (before any output is
written). -/
def headMarkerIdx : List String → Option Nat :=
  go 0
where
  go (i : Nat) : List String → Option Nat
    | [] => none
    | s :: rest =>
      match go (i + 1) rest with
      | some j => some j
      | none => if "Posterior mean".data.isPrefixOf s.data then some i else none

/-- Python slice `out_info[a : -3]`. -/
def pySliceNeg3 (a : Nat) (l : List String) : List String :=
  (l.take (l.length - 3)).drop a

/-- `[i for i in line.strip().split(' ') if i != '']`
(`EstimateTime.py:393`). -/
def tokensOf (s : String) : List (List Char) :=
  (splitChar ' ' (pyStrip wsChar s.data)).filter (fun x => !x.isEmpty)

/-- The three fields extracted from one record line
(`EstimateTime.py:393-396`): second token; fifth token stripped (Python
`strip`, i.e. from both ends) of `(` then of `,`; sixth token stripped of
`)`.  `none` models the `IndexError` when a token is missing. -/
def parseRecord (s : String) : Option (String × String × String) :=
  let ts := tokensOf s
  match ts.get? 1, ts.get? 4, ts.get? 5 with
  | some t1, some t4, some t5 =>
    some (String.mk t1,
      String.mk (pyStrip (fun c => c == ',') (pyStrip (fun c => c == '(') t4)),
      String.mk (pyStrip (fun c => c == ')') t5))
  | _, _, _ => none

/-- The name written for a qualifying node (`EstimateTime.py:388-392`),
with the running `NoName` counter. -/
def rowName (q : ETree) (nn : Nat) : String × Nat :=
  if q.nameOf == "" then ("NoName" ++ toString nn, nn + 1) else (q.nameOf, nn)

/-- The body of the output loop (`EstimateTime.py:385-398`): one row per
qualifying node, the `num`-th node consuming line `num` of `time_info`;
the boolean is `false` when the run dies with an `IndexError` (rows
produced before the crash are already written). -/
def summarizeRows (timeInfo : List String) :
    List ETree → Nat → Nat → List (String × String × String × String) × Bool
  | [], _, _ => ([], true)
  | q :: qs, num, nn =>
    match timeInfo.get? num with
    | none => ([], false)
    | some line =>
      match parseRecord line with
      | none => ([], false)
      | some (tm, lo, up) =>
        let (nm, nn') := rowName q nn
        let (rest, ok) := summarizeRows timeInfo qs (num + 1) nn'
        ((nm, tm, lo, up) :: rest, ok)

/-- One tab-separated output row (`EstimateTime.py:398`). -/
def rowText (r : String × String × String × String) : String :=
  r.1 ++ "\t" ++ r.2.1 ++ "\t" ++ r.2.2.1 ++ "\t" ++ r.2.2.2 ++ "\n"

/-- `_summarize_result` on the original tree and the raw `out_info`
lines: `none` when the marker line is absent (NameError, nothing
written); otherwise the `.haptime.txt` content actually written (header
plus the rows produced before any crash) and a flag telling whether the
loop completed. -/
def summarizeResult (t : ETree) (outInfo : List String) :
    Option (String × Bool) :=
  match headMarkerIdx outInfo with
  | none => none
  | some h =>
    let timeInfo := pySliceNeg3 (h + 2) outInfo
    let (rows, ok) := summarizeRows timeInfo (ETree.qualNodes t) 0 0
    some ("NodeName\tNodeTime\tLower\tUpper\n" ++ String.join (rows.map rowText), ok)

/-- Number of unnamed nodes among the first `k` entries of `qs`. -/
def unnamedBefore (qs : List ETree) (k : Nat) : Nat :=
  ((qs.take k).filter (fun q => q.nameOf == "")).length

/-- The row the specification prescribes for the `k`-th qualifying node:
node `k` paired with record line `k`, synthetic name `NoName<j>` counting
unnamed qualifying nodes from 0. -/
def specRowAux (timeInfo : List String) (qs : List ETree) (num nn k : Nat) :
    String × String × String × String :=
  let nm :=
    match qs.get? k with
    | some q =>
      if q.nameOf == "" then "NoName" ++ toString (nn + unnamedBefore qs k) else q.nameOf
    | none => ""
  match (timeInfo.get? (num + k)).bind parseRecord with
  | some (tm, lo, up) => (nm, tm, lo, up)
  | none => (nm, "", "", "")

def specRow (timeInfo : List String) (qs : List ETree) (k : Nat) :
    String × String × String × String :=
  specRowAux timeInfo qs 0 0 k

/-! ## Structural predicates used to state the normalization claims -/

namespace ETree

mutual

/-- No node of the tree (itself included) is an unnamed unary internal
node. -/
def cleanB : ETree → Bool
  | .node n cs => !(n == "" && cs.length == 1) && cleanL cs

def cleanL : List ETree → Bool
  | [] => true
  | c :: cs => cleanB c && cleanL cs

end

/-! ## Lemmas: unfolding helpers -/

theorem pruneNode_ne (n : String) (cs : List ETree)
    (h : ∀ c : ETree, n = "" → cs = [c] → False) :
    pruneNode (.node n cs) = .node n (pruneList cs) := by
  rw [pruneNode.eq_def]
  split
  · rename_i c heq
    injection heq with hn hc
    exact (h c hn hc).elim
  · rename_i n' cs' hne' heq
    injection heq with hn hc
    subst hn
    subst hc
    rfl

theorem annotNode_ne (used : List String) (n : String) (cs : List ETree)
    (h : ∀ c : ETree, n = "" → cs = [c] → False) (hcs : cs ≠ []) :
    annotNode used (.node n cs) =
      .node (if used.contains n then n else "NoName") (annotList used cs) := by
  rw [annotNode.eq_def]
  split
  · rename_i c heq
    injection heq with hn hc
    exact (h c hn hc).elim
  · rename_i n' heq
    injection heq with hn hc
    exact absurd hc hcs
  · rename_i n' cs' h1 h2 heq
    injection heq with hn hc
    subst hn
    subst hc
    rfl

theorem leafNames_node (n : String) (cs : List ETree) :
    leafNames (.node n cs) = if cs.isEmpty then [n] else leafNamesL cs := by
  cases cs <;> simp [leafNames]

theorem pruneList_length (l : List ETree) :
    (pruneList l).length = l.length := by
  induction l with
  | nil => simp [pruneList]
  | cons c cs ih => simp [pruneList, ih]

/-! ## Lemmas: leaf preservation (claim C5) -/

theorem prune_leaves : ∀ t, leafNames (pruneNode t) = leafNames t :=
  pruneNode.induct
    (fun t => leafNames (pruneNode t) = leafNames t)
    (fun l => leafNamesL (pruneList l) = leafNamesL l)
    (by
      intro c ih
      simpa [pruneNode, leafNames, leafNamesL] using ih)
    (by
      intro n cs hne ih
      rw [pruneNode_ne n cs hne]
      cases cs with
      | nil => simp [pruneList]
      | cons c cs' => simpa [pruneList, leafNames, leafNamesL] using ih)
    (by simp [pruneList])
    (by
      intro c cs ih1 ih2
      simp [pruneList, leafNamesL, ih1, ih2])

theorem pruneL_leaves (l : List ETree) : leafNamesL (pruneList l) = leafNamesL l := by
  induction l with
  | nil => simp [pruneList]
  | cons c cs ih => simp [pruneList, leafNamesL, prune_leaves c, ih]

theorem annot_leaves (used : List String) : ∀ t, leafNames (annotNode used t) = leafNames t :=
  annotNode.induct used
    (fun t => leafNames (annotNode used t) = leafNames t)
    (fun l => leafNamesL (annotList used l) = leafNamesL l)
    (by
      intro c ih
      simpa [annotNode, leafNames, leafNamesL] using ih)
    (by intro n; simp [annotNode])
    (by
      intro n cs hne hcs ih
      rw [annotNode_ne used n cs hne hcs]
      cases cs with
      | nil => exact absurd rfl hcs
      | cons c cs' => simpa [leafNames, leafNamesL] using ih)
    (by simp [annotList])
    (by
      intro c cs ih1 ih2
      simp [annotList, leafNamesL, ih1, ih2])

theorem annotL_leaves (used : List String) (l : List ETree) :
    leafNamesL (annotList used l) = leafNamesL l := by
  induction l with
  | nil => simp [annotList]
  | cons c cs ih => simp [annotList, leafNamesL, annot_leaves used c, ih]

theorem strip9_leaves : ∀ t, leafNames (strip9 t) = leafNames t :=
  strip9.induct
    (fun t => leafNames (strip9 t) = leafNames t)
    (fun l => leafNamesL (strip9L l) = leafNamesL l)
    (by intro n; simp [strip9])
    (by
      intro a c cs ih
      simpa [strip9, leafNames, leafNamesL] using ih)
    (by simp [strip9L])
    (by
      intro c cs ih1 ih2
      simp [strip9L, leafNamesL, ih1, ih2])

theorem strip9L_leaves (l : List ETree) : leafNamesL (strip9L l) = leafNamesL l := by
  induction l with
  | nil => simp [strip9L]
  | cons c cs ih => simp [strip9L, leafNamesL, strip9_leaves c, ih]

theorem normTop_leaves (t : ETree) : leafNames (normTop t) = leafNames t := by
  cases t with
  | node n cs =>
    cases cs with
    | nil => simp [normTop, nameOf, childrenOf, pruneList]
    | cons c cs' =>
      have h1 : pruneList (c :: cs') = pruneNode c :: pruneList cs' := by simp [pruneList]
      simp only [normTop, nameOf, childrenOf, h1, leafNames]
      simpa [pruneList, leafNamesL] using pruneL_leaves (c :: cs')

theorem annotTop_leaves (used : List String) (t : ETree) :
    leafNames (annotTop used t) = leafNames t := by
  cases t with
  | node n cs =>
    cases cs with
    | nil => simp [annotTop, nameOf, childrenOf, annotList]
    | cons c cs' =>
      have h1 : annotList used (c :: cs') = annotNode used c :: annotList used cs' := by
        simp [annotList]
      simp only [annotTop, nameOf, childrenOf, h1, leafNames]
      simpa [annotList, leafNamesL] using annotL_leaves used (c :: cs')

theorem readPruned_leaves (t : ETree) : leafNames (readPruned t) = leafNames t := by
  rw [readPruned, normTop_leaves, strip9_leaves]

/-- Simultaneous structural induction over a tree and its child lists. -/
theorem pairInd (P : ETree → Prop) (Q : List ETree → Prop)
    (h1 : ∀ n cs, Q cs → P (.node n cs)) (h2 : Q [])
    (h3 : ∀ c cs, P c → Q cs → Q (c :: cs)) :
    (∀ t, P t) ∧ (∀ l, Q l) := by
  have ht : ∀ t, P t := fun t => @ETree.rec P Q h1 h2 h3 t
  refine ⟨ht, fun l => ?_⟩
  induction l with
  | nil => exact h2
  | cons c cs ih => exact h3 c cs (ht c) ih

/-! ## Lemmas: what pruning removes and keeps (claim C3) -/

theorem prune_clean : ∀ t, cleanB (pruneNode t) = true :=
  pruneNode.induct
    (fun t => cleanB (pruneNode t) = true)
    (fun l => cleanL (pruneList l) = true)
    (by
      intro c ih
      simpa [pruneNode] using ih)
    (by
      intro n cs hne ih
      rw [pruneNode_ne n cs hne]
      simp only [cleanB, Bool.and_eq_true, ih, and_true]
      by_cases hn : n = ""
      · subst hn
        cases cs with
        | nil => simp [pruneList]
        | cons c cs' =>
          cases cs' with
          | nil => exact (hne c rfl rfl).elim
          | cons c' cs'' => simp [pruneList_length]
      · simp [hn])
    (by simp [pruneList, cleanL])
    (by
      intro c cs ih1 ih2
      simp [pruneList, cleanL, ih1, ih2])

theorem pruneL_clean (l : List ETree) : cleanL (pruneList l) = true := by
  induction l with
  | nil => simp [pruneList, cleanL]
  | cons c cs ih => simp [pruneList, cleanL, prune_clean c, ih]

theorem annot_factor (used : List String) :
    ∀ t, annotNode used t = renameUnused used (pruneNode t) :=
  annotNode.induct used
    (fun t => annotNode used t = renameUnused used (pruneNode t))
    (fun l => annotList used l = renameUnusedL used (pruneList l))
    (by
      intro c ih
      simpa [annotNode, pruneNode] using ih)
    (by
      intro n
      have h : pruneNode (.node n []) = .node n (pruneList ([] : List ETree)) :=
        pruneNode_ne n [] (by intro c h1 h2; cases h2)
      simp [annotNode, h, pruneList, renameUnused])
    (by
      intro n cs hne hcs ih
      rw [annotNode_ne used n cs hne hcs, pruneNode_ne n cs hne]
      cases cs with
      | nil => exact absurd rfl hcs
      | cons c cs' =>
        have h1 : pruneList (c :: cs') = pruneNode c :: pruneList cs' := by simp [pruneList]
        rw [h1, renameUnused]
        have h2 : annotList used (c :: cs') = renameUnusedL used (pruneList (c :: cs')) := ih
        rw [h2, h1])
    (by simp [annotList, pruneList, renameUnusedL])
    (by
      intro c cs ih1 ih2
      simp [annotList, pruneList, renameUnusedL, ih1, ih2])

theorem allNamesL_append (l : List ETree) (c : ETree) :
    allNamesL (c :: l) = allNames c ++ allNamesL l := by
  simp [allNamesL]

/-- Pruning never removes a nonempty name: the preorder sequence of
nonempty node names is untouched. -/
theorem prune_named : ∀ t,
    (allNames (pruneNode t)).filter (fun s => s != "") =
      (allNames t).filter (fun s => s != "") :=
  pruneNode.induct
    (fun t => (allNames (pruneNode t)).filter (fun s => s != "") =
      (allNames t).filter (fun s => s != ""))
    (fun l => (allNamesL (pruneList l)).filter (fun s => s != "") =
      (allNamesL l).filter (fun s => s != ""))
    (by
      intro c ih
      simpa [pruneNode, allNames, allNamesL] using ih)
    (by
      intro n cs hne ih
      rw [pruneNode_ne n cs hne]
      simp only [allNames, List.filter_cons]
      rw [ih])
    (by simp [pruneList])
    (by
      intro c cs ih1 ih2
      simp only [pruneList, allNamesL_append, List.filter_append]
      rw [ih1, ih2])

theorem pruneL_named (l : List ETree) :
    (allNamesL (pruneList l)).filter (fun s => s != "") =
      (allNamesL l).filter (fun s => s != "") := by
  induction l with
  | nil => simp [pruneList]
  | cons c cs ih =>
    simp only [pruneList, allNamesL_append, List.filter_append]
    rw [prune_named c, ih]

theorem normTop_name (t : ETree) : (normTop t).nameOf = t.nameOf := rfl

theorem annotTop_name (used : List String) (t : ETree) :
    (annotTop used t).nameOf = t.nameOf := rfl

/-! ## Lemmas: `search_nodes`-based renaming (claims C5, C6) -/

theorem renameFirst_node (nm pr n : String) (cs : List ETree) :
    renameFirst nm pr (.node n cs) =
      if n == nm then some (.node pr cs)
      else
        match renameFirstL nm pr cs with
        | some cs' => some (.node n cs')
        | none => none := by
  rw [renameFirst]

theorem renameFirstL_cons (nm pr : String) (c : ETree) (cs : List ETree) :
    renameFirstL nm pr (c :: cs) =
      match renameFirst nm pr c with
      | some c' => some (c' :: cs)
      | none =>
        match renameFirstL nm pr cs with
        | some cs' => some (c :: cs')
        | none => none := by
  rw [renameFirstL]

theorem renameFirst_spec (nm pr : String) :
    (∀ t, ((∃ t', renameFirst nm pr t = some t') ↔ nm ∈ allNames t)) ∧
      (∀ l, ((∃ l', renameFirstL nm pr l = some l') ↔ nm ∈ allNamesL l)) := by
  refine pairInd _ _ ?_ ?_ ?_
  · intro n cs ih
    by_cases hn : n = nm
    · subst hn
      simp [renameFirst_node, allNames]
    · constructor
      · rintro ⟨t', ht'⟩
        simp only [renameFirst_node, beq_iff_eq, hn, if_false] at ht'
        match hL : renameFirstL nm pr cs with
        | some cs' =>
          have : nm ∈ allNamesL cs := ih.1 ⟨cs', hL⟩
          simp [allNames, this]
        | none => simp only [hL] at ht'; exact Option.noConfusion ht'
      · intro hmem
        simp only [allNames, List.mem_cons] at hmem
        rcases hmem with h | h
        · exact absurd h.symm hn
        · obtain ⟨cs', hcs'⟩ := ih.2 h
          exact ⟨.node n cs', by simp [renameFirst_node, hn, hcs']⟩
  · simp [renameFirstL, allNamesL]
  · intro c cs ihc ihcs
    constructor
    · rintro ⟨l', hl'⟩
      rw [renameFirstL_cons] at hl'
      match h1 : renameFirst nm pr c with
      | some c' =>
        have : nm ∈ allNames c := ihc.1 ⟨c', h1⟩
        simp [allNamesL_append, this]
      | none =>
        simp only [h1] at hl'
        match h2 : renameFirstL nm pr cs with
        | some cs' =>
          have : nm ∈ allNamesL cs := ihcs.1 ⟨cs', h2⟩
          simp [allNamesL_append, this]
        | none => simp only [h2] at hl'; exact Option.noConfusion hl'
    · intro hmem
      rw [allNamesL_append, List.mem_append] at hmem
      by_cases h1 : ∃ c', renameFirst nm pr c = some c'
      · obtain ⟨c', hc'⟩ := h1
        exact ⟨c' :: cs, by simp [renameFirstL_cons, hc']⟩
      · have h1' : renameFirst nm pr c = none := by
          match hx : renameFirst nm pr c with
          | none => rfl
          | some c' => exact absurd ⟨c', hx⟩ h1
        rcases hmem with h | h
        · exact absurd (ihc.2 h) h1
        · obtain ⟨cs', hcs'⟩ := ihcs.2 h
          exact ⟨c :: cs', by simp [renameFirstL_cons, h1', hcs']⟩

/-- A failed lookup is exactly a name absent from the tree. -/
theorem renameFirst_none (nm pr : String) (t : ETree) :
    renameFirst nm pr t = none ↔ nm ∉ allNames t := by
  have h := (renameFirst_spec nm pr).1 t
  constructor
  · intro hn hmem
    obtain ⟨t', ht'⟩ := h.2 hmem
    rw [hn] at ht'
    cases ht'
  · intro hmem
    match ht : renameFirst nm pr t with
    | none => rfl
    | some t' => exact absurd (h.1 ⟨t', ht⟩) hmem

/-- Renaming can only introduce the new name `pr`. -/
theorem renameFirst_names (nm pr : String) :
    (∀ t, ∀ t', renameFirst nm pr t = some t' →
      ∀ x ∈ allNames t', x ∈ allNames t ∨ x = pr) ∧
      (∀ l, ∀ l', renameFirstL nm pr l = some l' →
        ∀ x ∈ allNamesL l', x ∈ allNamesL l ∨ x = pr) := by
  refine pairInd _ _ ?_ ?_ ?_
  · intro n cs ih t' ht' x hx
    rw [renameFirst_node] at ht'
    by_cases hn : n = nm
    · subst hn
      simp only [beq_self_eq_true, if_true, Option.some.injEq] at ht'
      subst ht'
      simp only [allNames, List.mem_cons] at hx
      rcases hx with h | h
      · right; exact h
      · left; simp [allNames, h]
    · simp only [beq_iff_eq, hn, if_false] at ht'
      match hL : renameFirstL nm pr cs with
      | some cs' =>
        simp only [hL, Option.some.injEq] at ht'
        subst ht'
        simp only [allNames, List.mem_cons] at hx
        rcases hx with h | h
        · left; simp [allNames, h]
        · rcases ih cs' hL x h with h' | h'
          · left; simp [allNames, h']
          · right; exact h'
      | none => simp only [hL] at ht'; exact Option.noConfusion ht'
  · intro l' hl'
    rw [renameFirstL] at hl'
    cases hl'
  · intro c cs ihc ihcs l' hl' x hx
    rw [renameFirstL_cons] at hl'
    match h1 : renameFirst nm pr c with
    | some c' =>
      simp only [h1, Option.some.injEq] at hl'
      subst hl'
      rw [allNamesL_append, List.mem_append] at hx
      rcases hx with h | h
      · rcases ihc c' h1 x h with h' | h'
        · left; rw [allNamesL_append, List.mem_append]; left; exact h'
        · right; exact h'
      · left; rw [allNamesL_append, List.mem_append]; right; exact h
    | none =>
      simp only [h1] at hl'
      match h2 : renameFirstL nm pr cs with
      | some cs' =>
        simp only [h2, Option.some.injEq] at hl'
        subst hl'
        rw [allNamesL_append, List.mem_append] at hx
        rcases hx with h | h
        · left; rw [allNamesL_append, List.mem_append]; left; exact h
        · rcases ihcs cs' h2 x h with h' | h'
          · left; rw [allNamesL_append, List.mem_append]; right; exact h'
          · right; exact h'
      | none => simp only [h2] at hl'; exact Option.noConfusion hl'

/-- Renaming a node does not change the number of leaves. -/
theorem renameFirst_leafLen (nm pr : String) :
    (∀ t, ∀ t', renameFirst nm pr t = some t' →
      (leafNames t').length = (leafNames t).length) ∧
      (∀ l, ∀ l', renameFirstL nm pr l = some l' →
        l'.length = l.length ∧ (leafNamesL l').length = (leafNamesL l).length) := by
  refine pairInd _ _ ?_ ?_ ?_
  · intro n cs ih t' ht'
    rw [renameFirst_node] at ht'
    by_cases hn : n = nm
    · subst hn
      simp only [beq_self_eq_true, if_true, Option.some.injEq] at ht'
      subst ht'
      rw [leafNames_node, leafNames_node]
      cases cs <;> simp
    · simp only [beq_iff_eq, hn, if_false] at ht'
      match hL : renameFirstL nm pr cs with
      | some cs' =>
        simp only [hL, Option.some.injEq] at ht'
        subst ht'
        obtain ⟨hlen, hleaf⟩ := ih cs' hL
        rw [leafNames_node, leafNames_node]
        cases cs with
        | nil =>
          cases cs' with
          | nil => simp
          | cons b bs => simp at hlen
        | cons a as =>
          cases cs' with
          | nil => simp at hlen
          | cons b bs => simpa using hleaf
      | none => simp only [hL] at ht'; exact Option.noConfusion ht'
  · intro l' hl'
    rw [renameFirstL] at hl'
    cases hl'
  · intro c cs ihc ihcs l' hl'
    rw [renameFirstL_cons] at hl'
    match h1 : renameFirst nm pr c with
    | some c' =>
      simp only [h1, Option.some.injEq] at hl'
      subst hl'
      have hc := ihc c' h1
      exact ⟨by simp, by simp only [leafNamesL, List.length_append, hc]⟩
    | none =>
      simp only [h1] at hl'
      match h2 : renameFirstL nm pr cs with
      | some cs' =>
        simp only [h2, Option.some.injEq] at hl'
        subst hl'
        obtain ⟨hlen, hleaf⟩ := ihcs cs' h2
        exact ⟨by simp [hlen], by simp only [leafNamesL, List.length_append, hleaf]⟩
      | none => simp only [h2] at hl'; exact Option.noConfusion hl'

end ETree

/-! ## Lemmas: the calibration parser (claims C4, C6, C7) -/

/-- The only error `parseCal` produces is the format error. -/
theorem parseCal_err_eq (s e : String) (h : parseCal s = .error e) :
    e = formatErr := by
  simp only [parseCal] at h
  repeat' split at h
  all_goals first
    | (injection h with h'; exact h'.symm)
    | cases h

theorem parseCal_cases (s : String) :
    (∃ v, parseCal s = .ok v) ∨ parseCal s = .error formatErr := by
  cases hp : parseCal s with
  | ok v => exact Or.inl ⟨v, rfl⟩
  | error e =>
    have he := parseCal_err_eq s e hp
    subst he
    exact Or.inr rfl

/-- A successfully parsed constraint has a nonempty all-word node name and
a prior expression that is not an all-word string (its second character is
an opening parenthesis). -/
theorem parseCal_shape (s nm pr : String) (h : parseCal s = .ok (nm, pr)) :
    word1 nm.data = true ∧ pr.data.all wordChar = false := by
  have hpar : wordChar '(' = false := by decide
  simp only [parseCal] at h
  repeat' split at h
  all_goals
    try (injection h with h'
         injection h' with h1 h2
         subst h1
         subst h2
         exact ⟨by assumption, by simp [List.all_cons, hpar]⟩)
  all_goals cases h

theorem parseCal_pr_ne (s nm pr : String) (h : parseCal s = .ok (nm, pr)) :
    pr ≠ "" := by
  intro he
  have := (parseCal_shape s nm pr h).2
  rw [he] at this
  simp at this

/-! ## Lemmas: the constraint loop (claims C5, C6, C7, C9) -/

/-- Names invariant carried through the loop: every all-word name of the
working tree already named a node of the original tree (renames only ever
introduce prior expressions, which contain a parenthesis). -/
def stInv (t0 : ETree) (st : CalState) : Prop :=
  ∀ x ∈ ETree.allNames st.tree, x.data.all wordChar = true → x ∈ ETree.allNames t0

theorem applyCal_inv (t0 : ETree) (r : String) (st st' : CalState) (l : String)
    (hinv : stInv t0 st) (h : applyCal r st l = .ok st') : stInv t0 st' := by
  unfold applyCal at h
  match hp : parseCal l with
  | .error e => rw [hp] at h; cases h
  | .ok (nm, pr) =>
    rw [hp] at h
    simp only at h
    by_cases hr : nm = r
    · have hb : (nm == r) = true := by simp [hr]
      rw [if_pos hb] at h
      injection h with h'
      subst h'
      exact hinv
    · have hb : (nm == r) = false := by simp [hr]
      rw [hb] at h
      simp only [Bool.false_eq_true, if_false] at h
      match hf : ETree.renameFirst nm pr st.tree with
      | some t' =>
        rw [hf] at h
        injection h with h'
        subst h'
        intro x hx hw
        rcases (ETree.renameFirst_names nm pr).1 st.tree t' hf x hx with hmem | hpr
        · exact hinv x hmem hw
        · rw [hpr] at hw
          rw [(parseCal_shape l nm pr hp).2] at hw
          cases hw
      | none => rw [hf] at h; cases h

/-- A loop step either keeps the tree (root-named constraint) or renames a
node whose name occurs in the working tree. -/
theorem applyCal_step (r : String) (st st' : CalState) (l : String)
    (h : applyCal r st l = .ok st') :
    ∃ nm pr, parseCal l = .ok (nm, pr) ∧
      (nm = r ∧ st'.tree = st.tree ∨
        nm ≠ r ∧ nm ∈ ETree.allNames st.tree ∧
          ETree.renameFirst nm pr st.tree = some st'.tree) := by
  unfold applyCal at h
  match hp : parseCal l with
  | .error e => rw [hp] at h; cases h
  | .ok (nm, pr) =>
    rw [hp] at h
    simp only at h
    refine ⟨nm, pr, rfl, ?_⟩
    by_cases hr : nm = r
    · have hb : (nm == r) = true := by simp [hr]
      rw [if_pos hb] at h
      injection h with h'
      subst h'
      exact Or.inl ⟨hr, rfl⟩
    · have hb : (nm == r) = false := by simp [hr]
      rw [hb] at h
      simp only [Bool.false_eq_true, if_false] at h
      match hf : ETree.renameFirst nm pr st.tree with
      | some t' =>
        rw [hf] at h
        injection h with h'
        subst h'
        refine Or.inr ⟨hr, (ETree.renameFirst_spec nm pr).1 st.tree |>.1 ⟨t', hf⟩, ?_⟩
        rfl
      | none => rw [hf] at h; cases h

/-- A failing loop step raises the format error (parse failure) or the
lookup error (absent node); nothing else. -/
theorem applyCal_err (r : String) (st : CalState) (l : String) (e : String)
    (h : applyCal r st l = .error e) : e = formatErr ∨ e = lookupErr := by
  unfold applyCal at h
  match hp : parseCal l with
  | .error e' =>
    rw [hp] at h
    injection h with h'
    subst h'
    rcases parseCal_cases l with ⟨v, hv⟩ | hf
    · rw [hp] at hv; cases hv
    · rw [hp] at hf
      injection hf with h''
      exact Or.inl h''
  | .ok (nm, pr) =>
    rw [hp] at h
    simp only at h
    by_cases hr : nm = r
    · have hb : (nm == r) = true := by simp [hr]
      rw [if_pos hb] at h
      cases h
    · have hb : (nm == r) = false := by simp [hr]
      rw [hb] at h
      simp only [Bool.false_eq_true, if_false] at h
      match hf : ETree.renameFirst nm pr st.tree with
      | some t' => rw [hf] at h; cases h
      | none =>
        rw [hf] at h
        injection h with h'
        exact Or.inr h'.symm

/-- Once the prefix succeeds, the loop continues on the suffix from the
reached state. -/
theorem applyCals_append (r : String) (st st' : CalState) (ls ms : List String)
    (h : applyCals r st ls = .ok st') :
    applyCals r st (ls ++ ms) = applyCals r st' ms := by
  induction ls generalizing st with
  | nil =>
    simp only [applyCals] at h
    injection h with h'
    subst h'
    simp [applyCals]
  | cons l ls ih =>
    simp only [applyCals] at h ⊢
    match hc : applyCal r st l with
    | .ok st1 =>
      rw [hc] at h
      exact ih st1 h
    | .error e => rw [hc] at h; cases h

/-- If every line of the input parses, the loop either succeeds or dies
with the lookup error. -/
theorem applyCals_ok_or_lookup (r : String) (ls : List String) (st : CalState)
    (hp : ∀ l ∈ ls, ∃ v, parseCal l = .ok v) :
    (∃ st', applyCals r st ls = .ok st') ∨ applyCals r st ls = .error lookupErr := by
  induction ls generalizing st with
  | nil => exact Or.inl ⟨st, rfl⟩
  | cons l ls ih =>
    simp only [applyCals]
    match hc : applyCal r st l with
    | .ok st1 => exact ih st1 (fun x hx => hp x (List.mem_cons_of_mem l hx))
    | .error e =>
      rcases applyCal_err r st l e hc with hf | hl
      · subst hf
        obtain ⟨⟨nm, pr⟩, hv⟩ := hp l (List.mem_cons_self l ls)
        unfold applyCal at hc
        rw [hv] at hc
        simp only at hc
        by_cases hr : nm = r
        · have hb : (nm == r) = true := by simp [hr]
          rw [if_pos hb] at hc
          cases hc
        · have hb : (nm == r) = false := by simp [hr]
          rw [hb] at hc
          simp only [Bool.false_eq_true, if_false] at hc
          match hf' : ETree.renameFirst nm pr st.tree with
          | some t' => rw [hf'] at hc; cases hc
          | none =>
            rw [hf'] at hc
            injection hc with h'
            exact absurd h'.symm (by intro hh; exact absurd hh (by simp [formatErr, lookupErr]))
      · subst hl
        exact Or.inr rfl

/-- If the loop succeeds, every constraint either named the root or named
a node present in the original tree. -/
theorem applyCals_names (t0 : ETree) (r : String) (ls : List String)
    (st st' : CalState) (hinv : stInv t0 st)
    (h : applyCals r st ls = .ok st') :
    ∀ l ∈ ls, ∀ nm pr, parseCal l = .ok (nm, pr) → nm = r ∨ nm ∈ ETree.allNames t0 := by
  induction ls generalizing st with
  | nil => intro l hl; cases hl
  | cons l0 ls ih =>
    simp only [applyCals] at h
    match hc : applyCal r st l0 with
    | .error e => rw [hc] at h; cases h
    | .ok st1 =>
      rw [hc] at h
      intro l hl nm pr hparse
      rcases List.mem_cons.1 hl with rfl | hmem
      · obtain ⟨nm', pr', hp', hstep⟩ := applyCal_step r st st1 l hc
        rw [hparse] at hp'
        injection hp' with hp''
        injection hp'' with h1 h2
        subst h1
        subst h2
        rcases hstep with ⟨hr, _⟩ | ⟨_, hmem', _⟩
        · exact Or.inl hr
        · right
          have hw := (parseCal_shape l nm pr hparse).1
          have hw' : nm.data.all wordChar = true := by
            simp only [word1, Bool.and_eq_true] at hw
            exact hw.2
          exact hinv nm hmem' hw'
      · exact ih st1 (applyCal_inv t0 r st st1 l0 hinv hc) h l hmem nm pr hparse

/-- Root-age sanity through the loop: it is `none` or a nonempty prior. -/
theorem applyCals_rootAge (r : String) (ls : List String) (st st' : CalState)
    (h0 : ∀ s, st.rootAge = some s → s ≠ "")
    (h : applyCals r st ls = .ok st') :
    ∀ s, st'.rootAge = some s → s ≠ "" := by
  induction ls generalizing st with
  | nil =>
    simp only [applyCals] at h
    injection h with h'
    subst h'
    exact h0
  | cons l ls ih =>
    simp only [applyCals] at h
    match hc : applyCal r st l with
    | .error e => rw [hc] at h; cases h
    | .ok st1 =>
      rw [hc] at h
      refine ih st1 ?_ h
      unfold applyCal at hc
      match hp : parseCal l with
      | .error e => rw [hp] at hc; cases hc
      | .ok (nm, pr) =>
        rw [hp] at hc
        simp only at hc
        by_cases hr : nm = r
        · have hb : (nm == r) = true := by simp [hr]
          rw [if_pos hb] at hc
          injection hc with h'
          subst h'
          intro s hs
          simp only at hs
          injection hs with hs'
          subst hs'
          exact parseCal_pr_ne l nm pr hp
        · have hb : (nm == r) = false := by simp [hr]
          rw [hb] at hc
          simp only [Bool.false_eq_true, if_false] at hc
          match hf : ETree.renameFirst nm pr st.tree with
          | some t' =>
            rw [hf] at hc
            injection hc with h'
            subst h'
            exact h0
          | none => rw [hf] at hc; cases hc

/-- Leaf count through the loop: renaming never changes it. -/
theorem applyCals_leafLen (r : String) (ls : List String) (st st' : CalState)
    (h : applyCals r st ls = .ok st') :
    (ETree.leafNames st'.tree).length = (ETree.leafNames st.tree).length := by
  induction ls generalizing st with
  | nil =>
    simp only [applyCals] at h
    injection h with h'
    subst h'
    rfl
  | cons l ls ih =>
    simp only [applyCals] at h
    match hc : applyCal r st l with
    | .error e => rw [hc] at h; cases h
    | .ok st1 =>
      rw [hc] at h
      have h1 := ih st1 h
      obtain ⟨nm, pr, hp, hstep⟩ := applyCal_step r st st1 l hc
      rcases hstep with ⟨_, heq⟩ | ⟨_, _, hf⟩
      · rw [h1, heq]
      · rw [h1, (ETree.renameFirst_leafLen nm pr).1 st.tree st1.tree hf]

/-! ## Lemmas: the textual `NoName` deletion (claim C10) -/

theorem noNamePat_isPrefixOf_iff (l : List Char) :
    noNamePat.isPrefixOf l = true ↔
      ∃ t, l = 'N' :: 'o' :: 'N' :: 'a' :: 'm' :: 'e' :: t := by
  rw [List.isPrefixOf_iff_prefix]
  constructor
  · rintro ⟨t, ht⟩
    exact ⟨t, by simpa [noNamePat] using ht.symm⟩
  · rintro ⟨t, rfl⟩
    exact ⟨t, by simp [noNamePat]⟩

theorem replaceNoName_pos (t : List Char) :
    replaceNoName ('N' :: 'o' :: 'N' :: 'a' :: 'm' :: 'e' :: t) = replaceNoName t := by
  simp [replaceNoName]

theorem replaceNoName_neg (c : Char) (rest : List Char)
    (h : noNamePat.isPrefixOf (c :: rest) = false) :
    replaceNoName (c :: rest) = c :: replaceNoName rest := by
  rw [replaceNoName.eq_def]
  split
  · rename_i t heq
    rw [show (c :: rest : List Char) = 'N' :: 'o' :: 'N' :: 'a' :: 'm' :: 'e' :: t from heq] at h
    rw [(noNamePat_isPrefixOf_iff _).2 ⟨t, rfl⟩] at h
    cases h
  · rename_i c' rest' hne heq
    injection heq with h1 h2
    subst h1
    subst h2
    rfl
  · rename_i heq
    cases heq

theorem isPrefixOf_append_sep (pat a b : List Char) (c : Char) (hc : c ∉ pat) :
    pat.isPrefixOf (a ++ c :: b) = pat.isPrefixOf a := by
  rw [Bool.eq_iff_iff, List.isPrefixOf_iff_prefix, List.isPrefixOf_iff_prefix]
  constructor
  · rintro ⟨t, ht⟩
    by_cases hlen : pat.length ≤ a.length
    · have h1 : pat = (a ++ c :: b).take pat.length := by
        rw [← ht, List.take_left]
      rw [List.take_append_of_le_length hlen] at h1
      rw [h1]
      exact List.take_prefix pat.length a
    · exfalso
      push_neg at hlen
      have hc1 : (a ++ c :: b)[a.length]? = some c := by
        rw [List.getElem?_append_right (Nat.le_refl a.length)]
        simp
      have hp1 : (pat ++ t)[a.length]? = pat[a.length]? := by
        rw [List.getElem?_append]
        simp [hlen]
      rw [ht, hc1] at hp1
      have hmem : c ∈ pat := by
        have hg : pat[a.length]? = some c := hp1.symm
        have := List.getElem?_eq_some.1 hg
        obtain ⟨hlt, hge⟩ := this
        exact hge ▸ List.getElem_mem hlt
      exact hc hmem
  · intro h
    exact h.trans (List.prefix_append a (c :: b))

theorem replace_sep (c : Char) (hc : c ∉ noNamePat) (a b : List Char) :
    replaceNoName (a ++ c :: b) = replaceNoName a ++ c :: replaceNoName b := by
  have hnil : ∀ b' : List Char, replaceNoName (c :: b') = c :: replaceNoName b' := by
    intro b'
    refine replaceNoName_neg c b' ?_
    have h1 := isPrefixOf_append_sep noNamePat [] b' c hc
    simpa using h1
  have key : ∀ n (a b : List Char), a.length ≤ n →
      replaceNoName (a ++ c :: b) = replaceNoName a ++ c :: replaceNoName b := by
    intro n
    induction n with
    | zero =>
      intro a b ha
      have ha0 : a = [] := List.length_eq_zero.1 (Nat.le_zero.1 ha)
      subst ha0
      simpa [replaceNoName] using hnil b
    | succ n ih =>
      intro a b ha
      cases a with
      | nil => simpa [replaceNoName] using hnil b
      | cons x a' =>
        by_cases hp : noNamePat.isPrefixOf (x :: a') = true
        · obtain ⟨t, hteq⟩ := (noNamePat_isPrefixOf_iff _).1 hp
          rw [hteq]
          rw [show ('N' :: 'o' :: 'N' :: 'a' :: 'm' :: 'e' :: t) ++ c :: b =
            'N' :: 'o' :: 'N' :: 'a' :: 'm' :: 'e' :: (t ++ c :: b) from by simp]
          rw [replaceNoName_pos, replaceNoName_pos]
          refine ih t b ?_
          have hlen : (x :: a').length = t.length + 6 := by rw [hteq]; simp
          simp only [List.length_cons] at ha hlen
          omega
        · have hp' : noNamePat.isPrefixOf (x :: a') = false :=
            Bool.eq_false_iff.2 hp
          have hfull : noNamePat.isPrefixOf ((x :: a') ++ c :: b) = false := by
            rw [isPrefixOf_append_sep noNamePat (x :: a') b c hc]
            exact hp'
          rw [show (x :: a') ++ c :: b = x :: (a' ++ c :: b) from by simp]
          rw [replaceNoName_neg x (a' ++ c :: b) (by simpa using hfull)]
          rw [replaceNoName_neg x a' hp']
          rw [ih a' b (by simpa using Nat.le_of_succ_le_succ ha)]
          simp
  exact key a.length a b (Nat.le_refl _)

/-- Per-name form of the textual deletion. -/
def stripNN (s : String) : String := String.mk (replaceNoName s.data)

theorem stripNN_data (s : String) : (stripNN s).data = replaceNoName s.data := rfl

theorem hc_lpar : ('(' : Char) ∉ noNamePat := by decide

theorem hc_rpar : (')' : Char) ∉ noNamePat := by decide

theorem hc_comma : (',' : Char) ∉ noNamePat := by decide

theorem hc_semi : (';' : Char) ∉ noNamePat := by decide

namespace ETree

theorem write8_strip : ∀ t,
    replaceNoName (write8 t).data = (write8 (mapNames stripNN t)).data :=
  write8.induct
    (fun t => replaceNoName (write8 t).data = (write8 (mapNames stripNN t)).data)
    (fun l => replaceNoName (write8L l).data = (write8L (mapNamesL stripNN l)).data)
    (by
      intro n
      simp [write8, mapNames, mapNamesL, stripNN_data])
    (by
      intro n c cs ih
      have h1 : ("(" ++ write8L (c :: cs) ++ ")" ++ n).data =
          '(' :: ((write8L (c :: cs)).data ++ ')' :: n.data) := by
        simp [String.data_append]
      have h2 : mapNamesL stripNN (c :: cs) = mapNames stripNN c :: mapNamesL stripNN cs := by
        simp [mapNamesL]
      simp only [write8, mapNames, h2]
      rw [show ("(" ++ write8L (mapNames stripNN c :: mapNamesL stripNN cs) ++ ")" ++ stripNN n).data =
        '(' :: ((write8L (mapNames stripNN c :: mapNamesL stripNN cs)).data ++ ')' :: (stripNN n).data) from by
          simp [String.data_append]]
      rw [h1]
      rw [show ('(' :: ((write8L (c :: cs)).data ++ ')' :: n.data) : List Char) =
        [] ++ '(' :: ((write8L (c :: cs)).data ++ ')' :: n.data) from by simp]
      rw [replace_sep '(' hc_lpar]
      rw [replace_sep ')' hc_rpar]
      rw [stripNN_data]
      rw [← h2]
      rw [ih]
      simp [replaceNoName])
    (by simp [write8L, mapNamesL, replaceNoName])
    (by
      intro c ih
      simpa [write8L, mapNamesL] using ih)
    (by
      intro c c' cs ih1 ih2
      simp only [write8L, mapNamesL]
      rw [show (write8 c ++ "," ++ write8L (c' :: cs)).data =
        (write8 c).data ++ ',' :: (write8L (c' :: cs)).data from by simp [String.data_append]]
      rw [replace_sep ',' hc_comma]
      rw [ih1, ih2]
      rw [show mapNames stripNN c' :: mapNamesL stripNN cs =
        mapNamesL stripNN (c' :: cs) from by simp [mapNamesL]]
      simp [String.data_append])

theorem write8L_strip (l : List ETree) :
    replaceNoName (write8L l).data = (write8L (mapNamesL stripNN l)).data := by
  induction l with
  | nil => simp [write8L, mapNamesL, replaceNoName]
  | cons c cs ih =>
    cases cs with
    | nil => simpa [write8L, mapNamesL] using write8_strip c
    | cons c' cs' =>
      simp only [write8L, mapNamesL]
      rw [show (write8 c ++ "," ++ write8L (c' :: cs')).data =
        (write8 c).data ++ ',' :: (write8L (c' :: cs')).data from by simp [String.data_append]]
      rw [replace_sep ',' hc_comma]
      rw [write8_strip c, ih]
      rw [show mapNames stripNN c' :: mapNamesL stripNN cs' =
        mapNamesL stripNN (c' :: cs') from by simp [mapNamesL]]
      simp [String.data_append]

/-- The whole-text deletion equals deleting `NoName` inside every node
name: serialization separators never occur inside the pattern. -/
theorem write8Top_strip (t : ETree) :
    replaceNoName (write8Top t).data = (write8Top (mapNames stripNN t)).data := by
  cases t with
  | node n cs =>
    cases cs with
    | nil =>
      simp only [write8Top, mapNames, mapNamesL]
      rw [show (n ++ ";").data = n.data ++ ';' :: [] from by simp [String.data_append]]
      rw [replace_sep ';' hc_semi]
      simp [write8Top, stripNN_data, String.data_append, replaceNoName]
    | cons c cs' =>
      have h2 : mapNamesL stripNN (c :: cs') = mapNames stripNN c :: mapNamesL stripNN cs' := by
        simp [mapNamesL]
      simp only [write8Top, mapNames, h2]
      rw [show ("(" ++ write8L (c :: cs') ++ ")" ++ ";").data =
        '(' :: ((write8L (c :: cs')).data ++ ')' :: [';'] ) from by simp [String.data_append]]
      rw [show ('(' :: ((write8L (c :: cs')).data ++ ')' :: [';']) : List Char) =
        [] ++ '(' :: ((write8L (c :: cs')).data ++ ')' :: [';']) from by simp]
      rw [replace_sep '(' hc_lpar]
      rw [replace_sep ')' hc_rpar]
      rw [← h2, write8L_strip]
      cases h3 : mapNamesL stripNN (c :: cs') with
      | nil => simp [mapNamesL] at h3
      | cons d ds =>
        simp [write8Top, write8L, String.data_append, replaceNoName]

end ETree

/-! ## Lemmas: positional pairing in `_summarize_result` (claim C2) -/

theorem unnamedBefore_zero (qs : List ETree) : unnamedBefore qs 0 = 0 := by
  simp [unnamedBefore]

theorem unnamedBefore_cons (q : ETree) (qs : List ETree) (k : Nat) :
    unnamedBefore (q :: qs) (k + 1) =
      (if q.nameOf == "" then 1 else 0) + unnamedBefore qs k := by
  simp only [unnamedBefore, List.take_succ_cons, List.filter_cons]
  by_cases h : q.nameOf == "" <;> simp [h, Nat.add_comm]

theorem rowName_fst (q : ETree) (nn : Nat) :
    (rowName q nn).1 =
      if q.nameOf == "" then "NoName" ++ toString nn else q.nameOf := by
  rw [rowName]
  split <;> rfl

theorem rowName_snd (q : ETree) (nn : Nat) :
    (rowName q nn).2 = nn + (if q.nameOf == "" then 1 else 0) := by
  rw [rowName]
  split <;> simp

theorem specRowAux_succ (timeInfo : List String) (q : ETree) (qs : List ETree)
    (num nn k : Nat) :
    specRowAux timeInfo (q :: qs) num nn (k + 1) =
      specRowAux timeInfo qs (num + 1)
        (nn + (if q.nameOf == "" then 1 else 0)) k := by
  have h1 : num + (k + 1) = (num + 1) + k := by omega
  have h2 : nn + unnamedBefore (q :: qs) (k + 1) =
      (nn + (if q.nameOf == "" then 1 else 0)) + unnamedBefore qs k := by
    rw [unnamedBefore_cons]
    omega
  simp only [specRowAux, List.get?_cons_succ, h1, h2]

theorem summarizeRows_spec (timeInfo : List String) :
    ∀ (qs : List ETree) (num nn : Nat),
      (∀ k, k < qs.length → ((timeInfo.get? (num + k)).bind parseRecord).isSome = true) →
      summarizeRows timeInfo qs num nn =
        ((List.range qs.length).map (specRowAux timeInfo qs num nn), true) := by
  intro qs
  induction qs with
  | nil =>
    intro num nn h
    simp [summarizeRows]
  | cons q qs ih =>
    intro num nn h
    have h0 := h 0 (by simp)
    simp only [Nat.add_zero] at h0
    rw [Option.isSome_iff_exists] at h0
    obtain ⟨⟨tm, lo, up⟩, hv⟩ := h0
    match hline : timeInfo.get? num with
    | none => rw [hline] at hv; cases hv
    | some line =>
      rw [hline] at hv
      simp only [Option.some_bind] at hv
      have hrest : ∀ k, k < qs.length →
          ((timeInfo.get? ((num + 1) + k)).bind parseRecord).isSome = true := by
        intro k hk
        have := h (k + 1) (by simpa using Nat.succ_lt_succ hk)
        rwa [show num + (k + 1) = (num + 1) + k from by omega] at this
      have hhead : specRowAux timeInfo (q :: qs) num nn 0 =
          ((if q.nameOf == "" then "NoName" ++ toString nn else q.nameOf), tm, lo, up) := by
        simp only [specRowAux, List.get?_cons_zero, Nat.add_zero, unnamedBefore_zero,
          hline, Option.some_bind, hv]
      have htail : (List.range qs.length).map
            ((specRowAux timeInfo (q :: qs) num nn) ∘ Nat.succ) =
          (List.range qs.length).map
            (specRowAux timeInfo qs (num + 1) (nn + (if q.nameOf == "" then 1 else 0))) := by
        refine List.map_congr_left ?_
        intro k hk
        simp only [Function.comp_apply]
        exact specRowAux_succ timeInfo q qs num nn k
      have hih := ih (num + 1) (nn + (if q.nameOf == "" then 1 else 0)) hrest
      simp only [summarizeRows, hline, hv]
      rw [rowName_snd, rowName_fst]
      rw [hih]
      simp only [List.length_cons, List.range_succ_eq_map, List.map_cons, List.map_map]
      simp only [Prod.mk.injEq, List.cons.injEq]
      exact ⟨⟨hhead.symm, htail.symm⟩, trivial⟩

/-! ## Remaining helper lemmas for the claim theorems -/

namespace ETree

theorem annotList_length (used : List String) (l : List ETree) :
    (annotList used l).length = l.length := by
  induction l with
  | nil => simp [annotList]
  | cons c cs ih => simp [annotList, ih]

theorem annot_clean (used : List String) : ∀ t, cleanB (annotNode used t) = true :=
  annotNode.induct used
    (fun t => cleanB (annotNode used t) = true)
    (fun l => cleanL (annotList used l) = true)
    (by
      intro c ih
      simpa [annotNode] using ih)
    (by
      intro n
      simp [annotNode, cleanB, cleanL])
    (by
      intro n cs hne hcs ih
      rw [annotNode_ne used n cs hne hcs]
      simp only [cleanB, Bool.and_eq_true, ih, and_true]
      by_cases hlen : cs.length = 1
      · obtain ⟨c, hc⟩ := List.length_eq_one.1 hlen
        subst hc
        have hn : ¬(n = "") := by
          intro hh
          exact hne c hh rfl
        have hname : ¬(if n ∈ used then n else "NoName") = "" := by
          split
          · exact hn
          · simp
        simp [annotList_length, hname]
      · simp [annotList_length, hlen])
    (by simp [annotList, cleanL])
    (by
      intro c cs ih1 ih2
      simp [annotList, cleanL, ih1, ih2])

theorem annotL_clean (used : List String) (l : List ETree) :
    cleanL (annotList used l) = true := by
  induction l with
  | nil => simp [annotList, cleanL]
  | cons c cs ih => simp [annotList, cleanL, annot_clean used c, ih]

end ETree

/-- The `root_age` returned by a successful `_haplogroup_calibration` is
either absent or a nonempty prior string. -/
theorem haplogroupCalibration_rootAge (lines : List String) (t : ETree)
    (out : String) (ra : Option String)
    (hc : haplogroupCalibration lines t = .ok (out, ra)) :
    ∀ s, ra = some s → s ≠ "" := by
  unfold haplogroupCalibration at hc
  match hap : applyCals t.nameOf ⟨t, none, []⟩ lines with
  | .error e => rw [hap] at hc; cases hc
  | .ok st =>
    rw [hap] at hc
    simp only at hc
    injection hc with hc'
    injection hc' with h1 h2
    subst h2
    exact applyCals_rootAge t.nameOf lines ⟨t, none, []⟩ st
      (by intro s hs; cases hs) hap

/-- Where `RootAge` appears in the assembled parameter mapping. -/
theorem lookup_rootAge (m : Option Int) (sq tr mc ot md rg : String)
    (ra : Option String) (hra : ∀ s, ra = some s → s ≠ "") :
    (generateMcmcCtl m sq tr mc ot md rg ra).lookup "RootAge" = ra := by
  cases ra with
  | none => simp [generateMcmcCtl, rootAgeParam, List.lookup]
  | some s =>
    have hs : (s == "") = false := by
      simp only [beq_eq_false_iff_ne, ne_eq]
      exact hra s rfl
    simp [generateMcmcCtl, rootAgeParam, hs, List.lookup]

/-- Where `nsample` appears in the assembled parameter mapping. -/
theorem lookup_nsample (m : Option Int) (sq tr mc ot md rg : String)
    (ra : Option String) :
    (generateMcmcCtl m sq tr mc ot md rg ra).lookup "nsample" =
      some (toString (mcmcChoice m).1) := by
  simp [generateMcmcCtl, List.lookup]

/-! ## Claim theorems -/

/-- C1: the claim says every constrained non-root node's prior replaces
that node's name in the serialized annotated tree.  The code violates
this for internal nodes: the rename pass compares the node's CURRENT name
(already the prior expression) against `used_nodes` (the original names),
renames the freshly annotated node to `NoName`, and the textual replace
erases it.  First conjunct: for tree `((A,B)H,C);` with constraint
`H:100-200` the written tree is `((A,B),C);` and the prior
`B(100, 200)` occurs nowhere in it.  The remaining conjuncts show the
spec's own end-to-end scenario (constraint on the LEAF `B` of
`((A,(B,C)),D);`) does produce `B(100, 200)` in place of `B`. -/
theorem c1_internal_prior_erased :
    haplogroupCalibration ["H:100-200"]
        (.node "" [.node "H" [.node "A" [], .node "B" []], .node "C" []]) =
      .ok ("3 1\n\n((A,B),C);", none) ∧
    ¬ List.IsInfix "B(100, 200)".data "3 1\n\n((A,B),C);".data ∧
    haplogroupCalibration ["B:100-200"]
        (.node "" [.node "" [.node "A" [],
          .node "" [.node "B" [], .node "C" []]], .node "D" []]) =
      .ok ("4 1\n\n((A,(B(100, 200),C)),D);", none) ∧
    List.IsInfix "B(100, 200)".data "4 1\n\n((A,(B(100, 200),C)),D);".data :=
  ⟨by decide, by decide, by decide, by decide⟩

/-- C2 counterexample: the claim promises one data row per qualifying
internal node for EVERY output text containing the marker line, but when
the sliced block is shorter than the node count the loop dies with an
`IndexError`: for tree `(A,B);` (one qualifying node) and an output whose
block `out_info[head_num+2:-3]` is empty, only the header is written and
the run crashes (completion flag `false`), not one row. -/
theorem c2_counterexample :
    summarizeResult (.node "" [.node "A" [], .node "B" []])
        ["Posterior mean", "a", "b", "c"] =
      some ("NodeName\tNodeTime\tLower\tUpper\n", false) ∧
    (ETree.qualNodes (.node "" [.node "A" [], .node "B" []])).length = 1 :=
  ⟨by decide, by decide⟩

/-- C2 amended: when the block supplies one parsable record (at least six
whitespace fields) for every qualifying internal node, `_summarize_result`
completes and writes the header plus exactly one row per qualifying node
in preorder, the `k`-th node paired with the `k`-th record line: name
(`NoName<j>` for the `j`-th unnamed node, counting from 0), second token
as time, fifth token stripped of `(` and `,` as lower, sixth token
stripped of `)` as upper. -/
theorem c2_positional_pairing (t : ETree) (out : List String) (h : Nat)
    (hm : headMarkerIdx out = some h)
    (hrec : ∀ k, k < (ETree.qualNodes t).length →
      (((pySliceNeg3 (h + 2) out).get? k).bind parseRecord).isSome = true) :
    summarizeResult t out =
      some ("NodeName\tNodeTime\tLower\tUpper\n" ++
        String.join (((List.range (ETree.qualNodes t).length).map
          (specRow (pySliceNeg3 (h + 2) out) (ETree.qualNodes t))).map rowText), true) := by
  have hs := summarizeRows_spec (pySliceNeg3 (h + 2) out) (ETree.qualNodes t) 0 0
    (by intro k hk; simpa using hrec k hk)
  simp only [summarizeResult, hm, hs]
  rfl

/-- C2 witness: the spec's fixture shape, a 5-leaf tree with exactly 3
qualifying internal nodes, against a well-formed output block, yields
exactly 3 data rows with the positional pairing. -/
theorem c2_positional_pairing_witness :
    summarizeResult
        (.node "" [.node "H1" [.node "A" [], .node "B" []], .node "C" [],
          .node "" [.node "D" [], .node "E" []]])
        ["x", "Posterior mean (etc)", "gap",
          "t_n6 1.0 a b (0.5, 2.5)", "t_n7 2.0 a b (1.5, 3.5)",
          "t_n8 3.0 a b (2.5, 4.5)", "tr1", "tr2", "tr3"] =
      some ("NodeName\tNodeTime\tLower\tUpper\nNoName0\t1.0\t0.5\t2.5\nH1\t2.0\t1.5\t3.5\nNoName1\t3.0\t2.5\t4.5\n", true) :=
  (c2_positional_pairing
    (.node "" [.node "H1" [.node "A" [], .node "B" []], .node "C" [],
      .node "" [.node "D" [], .node "E" []]])
    ["x", "Posterior mean (etc)", "gap",
      "t_n6 1.0 a b (0.5, 2.5)", "t_n7 2.0 a b (1.5, 3.5)",
      "t_n8 3.0 a b (2.5, 4.5)", "tr1", "tr2", "tr3"]
    1 (by decide) (by decide)).trans (by decide)

/-- C3 counterexample: the claim says EVERY unnamed unary non-leaf node is
removed, the root included (with its child becoming the new root), but the
pruning loops run over `iter_descendants`, which never yields the root:
for input `((A,B));` the unnamed unary root survives normalization and the
written tree is still `((A,B));`, not `(A,B);`. -/
theorem c3_counterexample :
    (readPruned (.node "" [.node "" [.node "A" [], .node "B" []]])).nameOf = "" ∧
    (readPruned (.node "" [.node "" [.node "A" [], .node "B" []]])).childrenOf.length = 1 ∧
    readTreeFileText (.node "" [.node "" [.node "A" [], .node "B" []]]) =
      "2 1\n\n((A,B));" :=
  ⟨by decide, by decide, by decide⟩

/-- C3 amended: below the root, normalization removes exactly the unnamed
unary non-leaf nodes, in both passes: (a) after either pass no strict
descendant is an unnamed unary non-leaf node; (b) the annotation pass
factors as the pure pruning pass followed by renaming, so its deletions
are exactly `pruneNode`'s; (c) pruning preserves the preorder sequence of
nonempty node names (no named node is ever removed — in the
calibration-free path the format-9 round trip has already cleared internal
names before pruning); (d) neither pass removes or renames the root node itself
(in the calibration-free path the root's NAME is nevertheless cleared
beforehand by the same format-9 round trip that clears all internal
names). -/
theorem c3_normalization_amended :
    (∀ t : ETree, ETree.cleanL (readPruned t).childrenOf = true) ∧
    (∀ (used : List String) (t : ETree),
      ETree.cleanL (ETree.annotTop used t).childrenOf = true) ∧
    (∀ (used : List String) (t : ETree),
      ETree.annotNode used t = ETree.renameUnused used (ETree.pruneNode t)) ∧
    (∀ t : ETree, (ETree.allNames (ETree.pruneNode t)).filter (fun s => s != "") =
      (ETree.allNames t).filter (fun s => s != "")) ∧
    (∀ t : ETree, (ETree.normTop t).nameOf = t.nameOf ∧
      ∀ used, (ETree.annotTop used t).nameOf = t.nameOf) := by
  refine ⟨?_, ?_, ?_, ?_, ?_⟩
  · intro t
    exact ETree.pruneL_clean (ETree.strip9 t).childrenOf
  · intro used t
    exact ETree.annotL_clean used t.childrenOf
  · intro used t
    exact ETree.annot_factor used t
  · intro t
    exact ETree.prune_named t
  · intro t
    exact ⟨rfl, fun used => rfl⟩

/-- C4: the four recognized constraint forms map to their prior
expressions exactly as claimed for literal argument strings, but a line
read from a constraint file keeps its trailing newline: the regexes still
match (Python `$` matches before a final newline) while the splits operate
on the raw line, so the newline is embedded in the produced prior —
`B:100-200\n` yields `B(100, 200\n)`, not `B(100, 200)`. -/
theorem c4_prior_forms_eval :
    parseCal "B:100-200" = .ok ("B", "B(100, 200)") ∧
    parseCal "H:50" = .ok ("H", "U(50)") ∧
    parseCal "H:<50" = .ok ("H", "U(50)") ∧
    parseCal "H:>50" = .ok ("H", "L(50)") ∧
    parseCal "B:100-200\n" = .ok ("B", "B(100, 200\n)") ∧
    parseCal "H:50\n" = .ok ("H", "U(50\n)") :=
  ⟨by decide, by decide, by decide, by decide, by decide, by decide⟩

/-- C5: both normalization passes preserve the leaf sequence (hence leaf
count, name set, and relative order), and the `<tip count> 1` header of
each written tree file carries the original tree's leaf count — also in
the annotation path, where constraint renaming may retitle a leaf but
never changes how many leaves there are. -/
theorem c5_leaf_preservation :
    (∀ t : ETree, ETree.leafNames (readPruned t) = ETree.leafNames t) ∧
    (∀ (used : List String) (t : ETree),
      ETree.leafNames (ETree.annotTop used t) = ETree.leafNames t) ∧
    (∀ t : ETree, readTaxaNum t = (ETree.leafNames t).length) ∧
    (∀ t : ETree, ∃ rest, readTreeFileText t =
      toString (ETree.leafNames t).length ++ " 1\n\n" ++ rest) ∧
    (∀ (lines : List String) (t : ETree) (out : String) (ra : Option String),
      haplogroupCalibration lines t = .ok (out, ra) →
      ∃ rest, out = toString (ETree.leafNames t).length ++ " 1\n\n" ++ rest) := by
  refine ⟨ETree.readPruned_leaves, ETree.annotTop_leaves, ?_, ?_, ?_⟩
  · intro t
    rw [readTaxaNum, ETree.readPruned_leaves]
  · intro t
    refine ⟨ETree.write9Top (readPruned t), ?_⟩
    rw [readTreeFileText, readTaxaNum, ETree.readPruned_leaves]
  · intro lines t out ra hc
    unfold haplogroupCalibration at hc
    match hap : applyCals t.nameOf ⟨t, none, []⟩ lines with
    | .error e => rw [hap] at hc; cases hc
    | .ok st =>
      rw [hap] at hc
      simp only at hc
      injection hc with hc'
      injection hc' with h1 h2
      have hlen : (ETree.leafNames (ETree.annotTop st.used st.tree)).length =
          (ETree.leafNames t).length := by
        rw [ETree.annotTop_leaves]
        exact applyCals_leafLen t.nameOf lines ⟨t, none, []⟩ st hap
      refine ⟨String.mk (replaceNoName
        (ETree.write8Top (ETree.annotTop st.used st.tree)).data), ?_⟩
      rw [← h1, hlen]

/-- C5 witness: the end-to-end scenario tree has 4 leaves before
annotation and its written header reads `4 1`. -/
theorem c5_leaf_preservation_witness :
    ∃ rest, "4 1\n\n((A,(B(100, 200),C)),D);" =
      toString (ETree.leafNames (.node "" [.node "" [.node "A" [],
        .node "" [.node "B" [], .node "C" []]], .node "D" []])).length ++
        " 1\n\n" ++ rest :=
  c5_leaf_preservation.2.2.2.2 ["B:100-200"]
    (.node "" [.node "" [.node "A" [],
      .node "" [.node "B" [], .node "C" []]], .node "D" []])
    "4 1\n\n((A,(B(100, 200),C)),D);" none (by decide)

/-- C6: when every calibration line is well-formed and some line names a
node that is neither the root nor present anywhere in the pre-annotation
tree, `_haplogroup_calibration` raises exactly the lookup error
`cannot find the haplogroup node in tree`; the constraint is never
silently ignored. -/
theorem c6_lookup_error (lines : List String) (t : ETree)
    (hw : ∀ l ∈ lines, ∃ v, parseCal l = .ok v)
    (habs : ∃ l ∈ lines, ∃ nm pr, parseCal l = .ok (nm, pr) ∧
      nm ≠ t.nameOf ∧ nm ∉ ETree.allNames t) :
    haplogroupCalibration lines t = .error lookupErr := by
  obtain ⟨l, hl, nm, pr, hp, hnr, hnm⟩ := habs
  rcases applyCals_ok_or_lookup t.nameOf lines ⟨t, none, []⟩ hw with ⟨st, hok⟩ | herr
  · exfalso
    have hn := applyCals_names t t.nameOf lines ⟨t, none, []⟩ st
      (fun x hx _ => hx) hok l hl nm pr hp
    rcases hn with h | h
    · exact hnr h
    · exact hnm h
  · simp only [haplogroupCalibration, herr]

/-- C6 witness: constraint `X:100` against tree `(A,B);` (names `""`,
`A`, `B`) aborts with the lookup error. -/
theorem c6_lookup_error_witness :
    haplogroupCalibration ["X:100"] (.node "" [.node "A" [], .node "B" []]) =
      .error lookupErr :=
  c6_lookup_error ["X:100"] (.node "" [.node "A" [], .node "B" []])
    (by
      intro l hl
      have : l = "X:100" := by simpa using hl
      subst this
      exact ⟨("X", "U(100)"), by decide⟩)
    ⟨"X:100", by decide, "X", "U(100)", by decide, by decide, by decide⟩

/-- C7: after any successfully applied prefix of well-formed constraints,
the first malformed line aborts the whole annotation with the format
error `format of calibration is incorrect`, whatever follows it; since
the tree file content is only produced on success, no partial annotation
is ever written. -/
theorem c7_format_error_fail_fast (t : ETree) (pre rest : List String)
    (m : String) (st : CalState)
    (hpre : applyCals t.nameOf ⟨t, none, []⟩ pre = .ok st)
    (hm : parseCal m = .error formatErr) :
    haplogroupCalibration (pre ++ m :: rest) t = .error formatErr := by
  have h1 := applyCals_append t.nameOf ⟨t, none, []⟩ st pre (m :: rest) hpre
  simp only [haplogroupCalibration, h1, applyCals, applyCal, hm]

/-- C7 witness: the well-formed `A:5` applies, then the malformed second
line `bad` aborts the run with the format error. -/
theorem c7_format_error_fail_fast_witness :
    haplogroupCalibration ["A:5", "bad"]
      (.node "" [.node "A" [], .node "B" []]) = .error formatErr :=
  c7_format_error_fail_fast (.node "" [.node "A" [], .node "B" []])
    ["A:5"] [] "bad"
    ⟨.node "" [.node "U(5)" [], .node "B" []], none, ["A"]⟩
    (by rfl) (by decide)

/-- C8 counterexample: the claim says every below-threshold user value is
replaced by the default AND a warning is logged, but `--mcmc 0` is falsy
in Python, takes the no-value branch, and logs no warning. -/
theorem c8_counterexample : mcmcChoice (some 0) = (10000, false) := by decide

/-- C8 amended: `nsample` equals the user value exactly when it exceeds
1000 (threshold 1001); any smaller nonzero value is replaced by the safe
default 10000 with a warning; the value 0 is treated like an absent value
(default, no warning); an absent value takes the default. -/
theorem c8_mcmc_threshold_amended (v : Int) (sq tr mc ot md rg : String) :
    (v ≥ 1001 → mcmcChoice (some v) = (v, false) ∧
      (generateMcmcCtl (some v) sq tr mc ot md rg none).lookup "nsample" =
        some (toString v)) ∧
    (v < 1001 → v ≠ 0 → mcmcChoice (some v) = (10000, true)) ∧
    mcmcChoice (some 0) = (10000, false) ∧
    mcmcChoice none = (10000, false) ∧
    (generateMcmcCtl none sq tr mc ot md rg none).lookup "nsample" = some "10000" := by
  refine ⟨?_, ?_, by decide, by decide, by simpa using lookup_nsample none sq tr mc ot md rg none⟩
  · intro hv
    have h0 : (v == 0) = false := by
      simp only [beq_eq_false_iff_ne, ne_eq]
      omega
    have h1 : v > 1000 := by omega
    have hch : mcmcChoice (some v) = (v, false) := by
      simp [mcmcChoice, h0, h1]
    refine ⟨hch, ?_⟩
    rw [lookup_nsample, hch]
  · intro hv hv0
    have h0 : (v == 0) = false := by
      simp only [beq_eq_false_iff_ne, ne_eq]
      exact hv0
    have h1 : ¬(v > 1000) := by omega
    simp [mcmcChoice, h0, h1]

/-- C8 witness: 5000 is honored unchanged without warning; 500 is replaced
by 10000 with a warning. -/
theorem c8_mcmc_threshold_amended_witness :
    mcmcChoice (some 5000) = (5000, false) ∧
    mcmcChoice (some 500) = (10000, true) :=
  ⟨((c8_mcmc_threshold_amended 5000 "" "" "" "" "" "").1 (by decide)).1,
   (c8_mcmc_threshold_amended 500 "" "" "" "" "" "").2.1 (by decide) (by decide)⟩

/-- C9: when both automatic and explicit calibration are requested,
`run_mcmc` overwrites the automatic lookup's root age with
`_haplogroup_calibration`'s `root_age`, whatever the lookup produced; the
`RootAge` parameter of the assembled mapping equals that explicit root
age and is omitted when the explicit constraints named no root. -/
theorem c9_rootage_from_explicit (autoLookup : Option String)
    (lines : List String) (t : ETree) (out : String) (ra : Option String)
    (m : Option Int) (sq tr mc ot md rg : String)
    (hc : haplogroupCalibration lines t = .ok (out, ra)) :
    selectRootAge true (some lines) autoLookup t = .ok ra ∧
    (generateMcmcCtl m sq tr mc ot md rg ra).lookup "RootAge" = ra := by
  constructor
  · simp only [selectRootAge, hc]
  · exact lookup_rootAge m sq tr mc ot md rg ra
      (haplogroupCalibration_rootAge lines t out ra hc)

/-- C9 witness: with `--auto` finding `B(1, 2)` and an explicit constraint
`A:5` naming no root, the selected root age is `none` and `RootAge` is
absent from the parameter mapping. -/
theorem c9_rootage_from_explicit_witness :
    selectRootAge true (some ["A:5"]) (some "B(1, 2)")
      (.node "" [.node "A" [], .node "B" []]) = .ok none ∧
    (generateMcmcCtl none "s" "t" "m" "o" "4" "r" none).lookup "RootAge" = none :=
  c9_rootage_from_explicit (some "B(1, 2)") ["A:5"]
    (.node "" [.node "A" [], .node "B" []])
    "2 1\n\n(U(5),B);" none none "s" "t" "m" "o" "4" "r" (by decide)

/-- C10: name clearing is textual, not structural: the file content equals
the format-8 serialization with every `NoName` occurrence deleted, and
that whole-text deletion coincides with deleting `NoName` inside each
node label (separators never occur inside the pattern) — so any label
containing `NoName` as a substring loses it.  Concretely, the leaf
`XNoNameY` (never renamed by the pass, which touches only internal
nodes) is written as `XY`, and an unconstrained internal label `Hap1` is
erased entirely. -/
theorem c10_textual_name_clearing :
    (∀ t : ETree, replaceNoName (ETree.write8Top t).data =
      (ETree.write8Top (ETree.mapNames stripNN t)).data) ∧
    haplogroupCalibration [] (.node "" [.node "XNoNameY" [], .node "Z" []]) =
      .ok ("2 1\n\n(XY,Z);", none) ∧
    haplogroupCalibration []
        (.node "" [.node "Hap1" [.node "A" [], .node "B" []], .node "C" []]) =
      .ok ("3 1\n\n((A,B),C);", none) :=
  ⟨ETree.write8Top_strip, by decide, by decide⟩

end YLT
